import Mathlib

/-!
# Verification of the QR sticker-sheet generator (`src/qr.py`)

Shallow embedding of the identifier encoder (`generate_custom_code`), the
allocator (`generate_ids`), the ledger loader (`load_used_ids`), the per-slot
layout of `generate_svg`, and the pagination loop of `main`.

Python strings are modelled as lists of characters (`PyStr`); Python `set`s of
identifiers are modelled as lists (for the allocator's membership filter) or
`Finset`s (for the ledger loader's result).  Machine integers do not overflow
in this program (Python has arbitrary-precision integers), so serial numbers
are `Nat` (the spec restricts serials to non-negative integers) and the
signed inputs `area` and `year` are `Int`.
-/

/-- A Python string, modelled as its list of characters. -/
abbrev PyStr := List Char

/-- The character of a single decimal digit `d < 10` (Python's `str` digit). -/
def digitChar (d : Nat) : Char := Char.ofNat (48 + d)

/-- Fuel-based big-endian decimal digits of a natural number; `digitsAux f n`
computes the digits of `n` provided `n ≤ f`.  Mirrors the digit loop hidden
inside Python's `str(int)`. -/
def digitsAux : Nat → Nat → List Nat
  | 0, _ => []
  | _ + 1, 0 => []
  | fuel + 1, n + 1 => digitsAux fuel ((n + 1) / 10) ++ [(n + 1) % 10]

/-- Big-endian decimal digits of `n` (empty for `n = 0`). -/
def natDigits (n : Nat) : List Nat := digitsAux n n

/-- Python `str(n)` for a non-negative integer `n`. -/
def natStr (n : Nat) : PyStr := if n = 0 then ['0'] else (natDigits n).map digitChar

/-- Python `str(i)` for an arbitrary integer `i`. -/
def intStr : Int → PyStr
  | .ofNat n => natStr n
  | .negSucc n => '-' :: natStr (n + 1)

/-- Python `s.zfill(w)` for a string of decimal digits: pad with leading
zeros up to width `w`; a string already at least `w` long is unchanged. -/
def zfill (w : Nat) (s : PyStr) : PyStr := List.replicate (w - s.length) '0' ++ s

/-- Python `s[-2:]`: the last two characters (the whole string if shorter). -/
def takeLastTwo (s : PyStr) : PyStr := s.drop (s.length - 2)

/-- The allocation configuration dict built in `main` of `src/qr.py`. -/
structure Config where
  area : Int
  producer_code : PyStr
  year : Int
  model_code : PyStr

/-- `generate_custom_code` from `src/qr.py` (lines 57-77):
`f"{area}{producer_code}{str(year)[-2:]}{model_code}{str(serial_number).zfill(7)}"`. -/
def generate_custom_code (area : Int) (producer_code : PyStr) (year : Int)
    (model_code : PyStr) (serial_number : Nat) : PyStr :=
  intStr area ++ producer_code ++ takeLastTwo (intStr year) ++ model_code ++
    zfill 7 (natStr serial_number)

/-- `generate_ids` from `src/qr.py` (lines 79-93): encode every serial in
`range(start, end + 1)` and keep the codes not in `used_ids`, in order. -/
def generate_ids (start end_ : Nat) (used_ids : List PyStr) (config : Config) : List PyStr :=
  ((List.range' start (end_ + 1 - start)).map fun serial =>
      generate_custom_code config.area config.producer_code config.year
        config.model_code serial).filter fun i => decide (i ∉ used_ids)

/-- `split_serial` from `src/qr.py` (lines 95-97): `(serial[:7], serial[7:14])`. -/
def split_serial (serial : PyStr) : PyStr × PyStr :=
  (serial.take 7, (serial.drop 7).take 7)

/-- One rectangle of the sticker template (coordinates exact, as rationals). -/
structure Rect where
  x : ℚ
  y : ℚ
  width : ℚ
  height : ℚ
deriving DecidableEq

/-- One occupied quadrant of a rectangle, as placed by `generate_svg`
(`src/qr.py` lines 119-129): its top-left corner and its identifier. -/
structure Slot where
  part_x : ℚ
  part_y : ℚ
  part_id : PyStr
deriving DecidableEq

/-- The body of the inner `for part in range(4)` loop of `generate_svg`:
emit the slot for each part index while `idx * 4 + part < len(ids)`,
breaking out of the loop at the first part that runs past the ids. -/
def partsLoop (r : Rect) (ids : List PyStr) (idx : Nat) : List Nat → List Slot
  | [] => []
  | part :: rest =>
    if idx * 4 + part < ids.length then
      { part_x := r.x + ((part % 2 : Nat) : ℚ) * (r.width / 2),
        part_y := r.y + ((part / 2 : Nat) : ℚ) * (r.height / 2),
        part_id := ids.getD (idx * 4 + part) [] } :: partsLoop r ids idx rest
    else []

/-- The outer `for idx, rect in enumerate(rectangles)` loop of `generate_svg`:
breaks as soon as `idx * 4 >= len(ids)`, otherwise emits the rectangle's
four-part slots and continues. -/
def rectsLoop (ids : List PyStr) : List (Nat × Rect) → List Slot
  | [] => []
  | (idx, r) :: rest =>
    if ids.length ≤ idx * 4 then []
    else partsLoop r ids idx (List.range 4) ++ rectsLoop ids rest

/-- The slot-placement performed by `generate_svg` (`src/qr.py` lines 99-144):
the ordered list of occupied slots it draws (each slot also receives a QR
image at `(part_x + 2, part_y - 2)` and two text lines, which reuse exactly
these coordinates and this identifier). -/
def generate_svg_slots (rectangles : List Rect) (ids : List PyStr) : List Slot :=
  rectsLoop ids rectangles.enum

/-- `rect_dimensions` from `main` in `src/qr.py` (lines 151-179): the 27-cell
sticker template (three columns of nine rectangles). -/
def rect_dimensions : List Rect :=
  [⟨213/10, 434/10, 180, 839/10⟩, ⟨213/10, 1273/10, 180, 839/10⟩,
   ⟨213/10, 2112/10, 180, 839/10⟩, ⟨213/10, 2951/10, 180, 839/10⟩,
   ⟨213/10, 379, 180, 839/10⟩, ⟨213/10, 4629/10, 180, 839/10⟩,
   ⟨213/10, 5468/10, 180, 839/10⟩, ⟨213/10, 6307/10, 180, 839/10⟩,
   ⟨213/10, 7146/10, 180, 839/10⟩,
   ⟨2076/10, 434/10, 180, 839/10⟩, ⟨2076/10, 1273/10, 180, 839/10⟩,
   ⟨2076/10, 2112/10, 180, 839/10⟩, ⟨2076/10, 2951/10, 180, 839/10⟩,
   ⟨2076/10, 379, 180, 839/10⟩, ⟨2076/10, 4629/10, 180, 839/10⟩,
   ⟨2076/10, 5468/10, 180, 839/10⟩, ⟨2076/10, 6307/10, 180, 839/10⟩,
   ⟨2076/10, 7146/10, 180, 839/10⟩,
   ⟨394, 434/10, 180, 839/10⟩, ⟨394, 1273/10, 180, 839/10⟩,
   ⟨394, 2112/10, 180, 839/10⟩, ⟨394, 2951/10, 180, 839/10⟩,
   ⟨394, 379, 180, 839/10⟩, ⟨394, 4629/10, 180, 839/10⟩,
   ⟨394, 5468/10, 180, 839/10⟩, ⟨394, 6307/10, 180, 839/10⟩,
   ⟨394, 7146/10, 180, 839/10⟩]

/-- `ids_per_file = 27 * 4` from `main` in `src/qr.py` (line 205). -/
def ids_per_file : Nat := 27 * 4

/-- Fuel-based chunking; with `1 ≤ c` and `l.length ≤ fuel` this computes the
successive slices `l[i : i + c]` taken by the pagination loop of `main`. -/
def chunkGo (c : Nat) : Nat → List α → List (List α)
  | 0, _ => []
  | _ + 1, [] => []
  | fuel + 1, x :: xs => ((x :: xs).take c) :: chunkGo c fuel ((x :: xs).drop c)

/-- The pagination of `main` (`src/qr.py` lines 204-211): the slices
`ids[i : i + c]` for `i in range(0, len(ids), c)`. -/
def chunkList (c : Nat) (l : List α) : List (List α) := chunkGo c l.length l

/-- Errors the ledger loader can raise. -/
inductive LedgerError where
  | stopIteration
  | indexError
deriving DecidableEq

/-- `row[0]`: the first field of a CSV row, or an `IndexError` on an empty row. -/
def firstColumn : List PyStr → Except LedgerError PyStr
  | [] => .error .indexError
  | x :: _ => .ok x

/-- `load_used_ids` from `src/qr.py` (lines 22-30).  The CSV file is modelled
as `none` when missing (`FileNotFoundError` → empty set) and otherwise as its
list of rows; `next(reader)` on a zero-row file raises `StopIteration`, and
each remaining row contributes `row[0]` to the returned set. -/
def load_used_ids : Option (List (List PyStr)) → Except LedgerError (Finset PyStr)
  | none => .ok ∅
  | some [] => .error .stopIteration
  | some (_ :: rest) => (rest.mapM firstColumn).map List.toFinset

/-! ## Lemmas about decimal digits and zero-padding -/

theorem digitsAux_fuel_irrel : ∀ f g n : Nat, n ≤ f → n ≤ g →
    digitsAux f n = digitsAux g n := by
  intro f
  induction f with
  | zero =>
    intro g n hf _
    interval_cases n
    cases g <;> rfl
  | succ f ih =>
    intro g n hf hg
    match g, n with
    | 0, n => interval_cases n; rfl
    | g + 1, 0 => rfl
    | g + 1, n + 1 =>
      show digitsAux f ((n + 1) / 10) ++ _ = digitsAux g ((n + 1) / 10) ++ _
      have hd : (n + 1) / 10 < n + 1 := Nat.div_lt_self (Nat.succ_pos n) (by omega)
      rw [ih g ((n + 1) / 10) (by omega) (by omega)]

theorem natDigits_zero : natDigits 0 = [] := rfl

theorem natDigits_succ (n : Nat) (h : 1 ≤ n) :
    natDigits n = natDigits (n / 10) ++ [n % 10] := by
  obtain ⟨m, rfl⟩ : ∃ m, n = m + 1 := ⟨n - 1, by omega⟩
  show digitsAux (m + 1) (m + 1) = _
  have hd : (m + 1) / 10 < m + 1 := Nat.div_lt_self (Nat.succ_pos m) (by omega)
  show digitsAux m ((m + 1) / 10) ++ [(m + 1) % 10] = _
  rw [digitsAux_fuel_irrel m ((m + 1) / 10) ((m + 1) / 10) (by omega) le_rfl]
  rfl

theorem length_natDigits_le (n k : Nat) (h : n < 10 ^ k) :
    (natDigits n).length ≤ k := by
  induction k generalizing n with
  | zero =>
    interval_cases n
    simp [natDigits_zero]
  | succ k ih =>
    rcases Nat.eq_zero_or_pos n with rfl | hn
    · simp [natDigits_zero]
    · rw [natDigits_succ n hn]
      have hd : n / 10 < 10 ^ k := Nat.div_lt_of_lt_mul (by rw [pow_succ] at h; omega)
      have := ih (n / 10) hd
      simp only [List.length_append, List.length_cons, List.length_nil]
      omega

theorem lt_length_natDigits (n k : Nat) (h : 10 ^ k ≤ n) :
    k < (natDigits n).length := by
  induction k generalizing n with
  | zero =>
    have hn : 1 ≤ n := by simpa using h
    rw [natDigits_succ n hn]
    simp
  | succ k ih =>
    have hn : 1 ≤ n := le_trans (Nat.one_le_pow (k + 1) 10 (by omega)) h
    rw [natDigits_succ n hn]
    have hd : 10 ^ k ≤ n / 10 := by
      rw [Nat.le_div_iff_mul_le (by omega)]
      calc 10 ^ k * 10 = 10 ^ (k + 1) := by ring
      _ ≤ n := h
    have := ih (n / 10) hd
    simp only [List.length_append, List.length_cons, List.length_nil]
    omega

theorem natDigits_lt_ten (n : Nat) : ∀ d ∈ natDigits n, d < 10 := by
  induction n using Nat.strong_induction_on with
  | _ n ih =>
    rcases Nat.eq_zero_or_pos n with rfl | hn
    · simp [natDigits_zero]
    · rw [natDigits_succ n hn]
      intro d hd
      rcases List.mem_append.mp hd with hmem | hmem
      · exact ih (n / 10) (Nat.div_lt_self hn (by omega)) d hmem
      · simp only [List.mem_singleton] at hmem
        subst hmem
        exact Nat.mod_lt n (by omega)

/-- Recover a number from the characters of its (possibly zero-padded)
decimal form: fold `a ↦ 10 * a + (digit value of c)`. -/
def charListVal (s : PyStr) : Nat :=
  s.foldl (fun a c => 10 * a + (c.toNat - 48)) 0

theorem toNat_digitChar (d : Nat) (h : d < 10) : (digitChar d).toNat = 48 + d := by
  interval_cases d <;> decide

theorem foldl_val_natDigits (n : Nat) :
    (natDigits n).foldl (fun a c => 10 * a + c) 0 = n := by
  induction n using Nat.strong_induction_on with
  | _ n ih =>
    rcases Nat.eq_zero_or_pos n with rfl | hn
    · simp [natDigits_zero]
    · rw [natDigits_succ n hn, List.foldl_append]
      rw [ih (n / 10) (Nat.div_lt_self hn (by omega))]
      simp only [List.foldl_cons, List.foldl_nil]
      omega

theorem charListVal_natStr (n : Nat) : charListVal (natStr n) = n := by
  unfold charListVal natStr
  rcases Nat.eq_zero_or_pos n with rfl | hn
  · decide
  · rw [if_neg (by omega)]
    have hmap : ∀ l : List Nat, (∀ d ∈ l, d < 10) → ∀ a : Nat,
        (l.map digitChar).foldl (fun a c => 10 * a + (c.toNat - 48)) a =
          l.foldl (fun a c => 10 * a + c) a := by
      intro l
      induction l with
      | nil => intro _ _; rfl
      | cons d rest ihl =>
        intro hlt a
        simp only [List.map_cons, List.foldl_cons]
        rw [toNat_digitChar d (hlt d (by simp))]
        rw [ihl (fun x hx => hlt x (by simp [hx]))]
        congr 1
        omega
    rw [hmap (natDigits n) (natDigits_lt_ten n) 0, foldl_val_natDigits]

theorem charListVal_zfill (k : Nat) (s : PyStr) :
    charListVal (zfill k s) = charListVal s := by
  unfold charListVal zfill
  rw [List.foldl_append]
  congr 1
  generalize k - s.length = m
  induction m with
  | zero => rfl
  | succ m ihm => rw [List.replicate_succ, List.foldl_cons]; simpa using ihm

theorem zfill_natStr_injective (k : Nat) (m n : Nat)
    (h : zfill k (natStr m) = zfill k (natStr n)) : m = n := by
  have hm := charListVal_zfill k (natStr m)
  have hn := charListVal_zfill k (natStr n)
  rw [charListVal_natStr] at hm hn
  rw [← hm, ← hn, h]

theorem zfill_of_length_le (w : Nat) (s : PyStr) (h : w ≤ s.length) :
    zfill w s = s := by
  unfold zfill
  rw [Nat.sub_eq_zero_of_le h]
  rfl

theorem natStr_of_pos (n : Nat) (h : 1 ≤ n) :
    natStr n = (natDigits n).map digitChar := by
  unfold natStr
  rw [if_neg (by omega)]

theorem length_natStr_of_ge (n k : Nat) (h : 10 ^ k ≤ n) :
    k < (natStr n).length := by
  have hn : 1 ≤ n := le_trans (Nat.one_le_pow k 10 (by omega)) h
  rw [natStr_of_pos n hn, List.length_map]
  exact lt_length_natDigits n k h

theorem zfill_natStr_eq_zfill_digits (k n : Nat) (hk : 1 ≤ k) :
    zfill k (natStr n) = zfill k ((natDigits n).map digitChar) := by
  rcases Nat.eq_zero_or_pos n with rfl | hn
  · show zfill k ['0'] = zfill k []
    unfold zfill
    simp only [List.length_singleton, List.length_nil, Nat.sub_zero, List.append_nil]
    obtain ⟨m, rfl⟩ : ∃ m, k = m + 1 := ⟨k - 1, by omega⟩
    rw [List.replicate_succ']
    simp
  · rw [natStr_of_pos n hn]

theorem zfill_digits_step (k n : Nat) :
    zfill (k + 1) ((natDigits n).map digitChar) =
      zfill k ((natDigits (n / 10)).map digitChar) ++ [digitChar (n % 10)] := by
  rcases Nat.eq_zero_or_pos n with rfl | hn
  · show zfill (k + 1) [] = zfill k [] ++ [digitChar 0]
    unfold zfill
    simp only [List.length_nil, Nat.sub_zero, List.append_nil]
    rw [show digitChar 0 = '0' from by decide, ← List.replicate_succ']
  · rw [natDigits_succ n hn, List.map_append]
    unfold zfill
    simp only [List.length_append, List.length_map, List.length_cons, List.length_nil,
      List.map_cons, List.map_nil]
    rw [show k + 1 - ((natDigits (n / 10)).length + (0 + 1)) =
        k - ((natDigits (n / 10)).map digitChar).length from by
      simp only [List.length_map]; omega]
    simp [List.append_assoc]

theorem zfill_digits_eq_rangeMap (k : Nat) : ∀ n : Nat, n < 10 ^ k →
    zfill k ((natDigits n).map digitChar) =
      (List.range k).map fun i => digitChar (n / 10 ^ (k - 1 - i) % 10) := by
  induction k with
  | zero =>
    intro n h
    interval_cases n
    rfl
  | succ k ih =>
    intro n h
    rw [zfill_digits_step, List.range_succ, List.map_append]
    have hd : n / 10 < 10 ^ k := Nat.div_lt_of_lt_mul (by rw [pow_succ] at h; omega)
    rw [ih (n / 10) hd]
    congr 1
    · apply List.map_congr_left
      intro i hi
      have hik : i < k := List.mem_range.mp hi
      congr 2
      rw [Nat.div_div_eq_div_mul]
      congr 1
      rw [show k + 1 - 1 - i = (k - 1 - i) + 1 from by omega, pow_succ, mul_comm]
    · simp

/-- The spec's reading of the serial field: exactly seven decimal digits,
most significant first (digit `i` of `serial` is `serial / 10 ^ (6 - i) % 10`). -/
def sevenDigits (serial : Nat) : PyStr :=
  (List.range 7).map fun i => digitChar (serial / 10 ^ (6 - i) % 10)

theorem zfill_natStr_eq_sevenDigits (n : Nat) (h : n < 10 ^ 7) :
    zfill 7 (natStr n) = sevenDigits n := by
  rw [zfill_natStr_eq_zfill_digits 7 n (by omega), zfill_digits_eq_rangeMap 7 n h]
  rfl

/-! ## Lemmas about the pagination chunking -/

theorem chunkGo_nil (c fuel : Nat) : chunkGo c fuel ([] : List α) = [] := by
  cases fuel <;> rfl

theorem chunkGo_cons (c fuel : Nat) (x : α) (xs : List α) :
    chunkGo c (fuel + 1) (x :: xs) =
      ((x :: xs).take c) :: chunkGo c fuel ((x :: xs).drop c) := rfl

theorem chunkGo_ne_nil (fuel : Nat) (l : List α) (h : l ≠ []) (hf : 1 ≤ fuel) :
    chunkGo 108 fuel l ≠ [] := by
  match fuel, l with
  | fuel + 1, x :: xs => rw [chunkGo_cons]; simp

theorem length_drop108_le (x : α) (xs : List α) (fuel : Nat)
    (h : (x :: xs).length ≤ fuel + 1) : ((x :: xs).drop 108).length ≤ fuel := by
  simp only [List.length_drop, List.length_cons] at *
  omega

theorem chunkGo_flatten (fuel : Nat) : ∀ l : List α, l.length ≤ fuel →
    (chunkGo 108 fuel l).flatten = l := by
  induction fuel with
  | zero =>
    intro l h
    obtain rfl : l = [] := List.length_eq_zero.mp (Nat.le_zero.mp h)
    rfl
  | succ fuel ih =>
    intro l h
    match l with
    | [] => rfl
    | x :: xs =>
      rw [chunkGo_cons, List.flatten_cons, ih ((x :: xs).drop 108) (length_drop108_le x xs fuel h)]
      exact List.take_append_drop 108 (x :: xs)

theorem chunkGo_length (fuel : Nat) : ∀ l : List α, l.length ≤ fuel →
    (chunkGo 108 fuel l).length = (l.length + 107) / 108 := by
  induction fuel with
  | zero =>
    intro l h
    obtain rfl : l = [] := List.length_eq_zero.mp (Nat.le_zero.mp h)
    simp [chunkGo_nil]
  | succ fuel ih =>
    intro l h
    match l with
    | [] => simp [chunkGo_nil]
    | x :: xs =>
      rw [chunkGo_cons, List.length_cons, ih ((x :: xs).drop 108) (length_drop108_le x xs fuel h)]
      simp only [List.length_drop, List.length_cons]
      omega

theorem chunkGo_dropLast (fuel : Nat) : ∀ l : List α, l.length ≤ fuel →
    ∀ p ∈ (chunkGo 108 fuel l).dropLast, p.length = 108 := by
  induction fuel with
  | zero =>
    intro l h
    obtain rfl : l = [] := List.length_eq_zero.mp (Nat.le_zero.mp h)
    simp [chunkGo_nil]
  | succ fuel ih =>
    intro l h
    match l with
    | [] => simp [chunkGo_nil]
    | x :: xs =>
      rw [chunkGo_cons]
      rcases hrest : chunkGo 108 fuel ((x :: xs).drop 108) with _ | ⟨r, rs⟩
      · simp
      · intro p hp
        rw [List.dropLast_cons₂] at hp
        rcases List.mem_cons.mp hp with rfl | hp'
        · have hne : (x :: xs).drop 108 ≠ [] := by
            intro hnil
            rw [hnil, chunkGo_nil] at hrest
            exact List.cons_ne_nil r rs hrest.symm
          have hlong : 108 < (x :: xs).length := by
            have := List.length_pos.mpr hne
            simp only [List.length_drop] at this
            omega
          simp only [List.length_take]
          omega
        · have := ih ((x :: xs).drop 108) (length_drop108_le x xs fuel h) p
          rw [hrest] at this
          exact this hp'

theorem chunkGo_getLast (fuel : Nat) : ∀ l : List α, l.length ≤ fuel → l ≠ [] →
    ∀ p, (chunkGo 108 fuel l).getLast? = some p →
      p.length = if l.length % 108 = 0 then 108 else l.length % 108 := by
  induction fuel with
  | zero =>
    intro l h hne
    exact absurd (List.length_eq_zero.mp (by omega)) hne
  | succ fuel ih =>
    intro l h hne p hp
    match l with
    | x :: xs =>
      rw [chunkGo_cons] at hp
      rcases hrest : chunkGo 108 fuel ((x :: xs).drop 108) with _ | ⟨r, rs⟩
      · rw [hrest] at hp
        simp only [List.getLast?_singleton, Option.some.injEq] at hp
        have hnil : (x :: xs).drop 108 = [] := by
          by_contra hns
          exact chunkGo_ne_nil fuel _ hns (by
            have := List.length_pos.mpr hns
            simp only [List.length_drop] at this
            omega) hrest
        have hshort : (x :: xs).length ≤ 108 := by
          have := List.drop_eq_nil_iff.mp hnil
          omega
        rw [← hp]
        simp only [List.length_take, List.length_cons]
        simp only [List.length_cons] at hshort
        split <;> omega
      · rw [hrest, List.getLast?_cons_cons] at hp
        have hne' : (x :: xs).drop 108 ≠ [] := by
          intro hnil
          rw [hnil, chunkGo_nil] at hrest
          exact List.cons_ne_nil r rs hrest.symm
        have := ih ((x :: xs).drop 108) (length_drop108_le x xs fuel h) hne' p
          (by rw [hrest]; exact hp)
        have hlong : 108 < (x :: xs).length := by
          have := List.length_pos.mpr hne'
          simp only [List.length_drop] at this
          omega
        simp only [List.length_drop] at this
        rw [show ((x :: xs).length - 108) % 108 = (x :: xs).length % 108 from by omega] at this
        exact this

/-! ## Lemmas about the slot layout of `generate_svg` -/

/-- The slot a part occupies: raster position `part` inside rectangle `r`,
holding the identifier at global index `idx * 4 + part`. -/
def slotOf (r : Rect) (part : Nat) (v : PyStr) : Slot :=
  { part_x := r.x + ((part % 2 : Nat) : ℚ) * (r.width / 2),
    part_y := r.y + ((part / 2 : Nat) : ℚ) * (r.height / 2),
    part_id := v }

theorem partsLoop_getElem? (r : Rect) (ids : List PyStr) (idx : Nat) :
    ∀ n a k : Nat, (partsLoop r ids idx (List.range' a n))[k]? =
      if idx * 4 + (a + k) < ids.length ∧ k < n then
        some (slotOf r (a + k) (ids.getD (idx * 4 + (a + k)) []))
      else none := by
  intro n
  induction n with
  | zero =>
    intro a k
    simp [partsLoop]
  | succ n ihn =>
    intro a k
    rw [List.range'_succ]
    by_cases hc : idx * 4 + a < ids.length
    · rw [show partsLoop r ids idx (a :: List.range' (a + 1) n 1) =
          slotOf r a (ids.getD (idx * 4 + a) []) :: partsLoop r ids idx (List.range' (a + 1) n 1)
          from by rw [partsLoop, if_pos hc]; rfl]
      cases k with
      | zero =>
        rw [List.getElem?_cons_zero, if_pos ⟨by omega, by omega⟩]
        norm_num
      | succ k =>
        rw [List.getElem?_cons_succ, ihn (a + 1) k,
          show a + 1 + k = a + (k + 1) from by omega]
        by_cases hk : idx * 4 + (a + (k + 1)) < ids.length ∧ k < n
        · rw [if_pos hk, if_pos ⟨hk.1, by omega⟩]
        · rw [if_neg hk, if_neg (by omega)]
    · rw [show partsLoop r ids idx (a :: List.range' (a + 1) n 1) = [] from by
        rw [partsLoop, if_neg hc]]
      rw [if_neg (by omega)]
      rfl

theorem partsLoop_length (r : Rect) (ids : List PyStr) (idx : Nat) :
    ∀ n a : Nat, (partsLoop r ids idx (List.range' a n)).length =
      min n (ids.length - (idx * 4 + a)) := by
  intro n
  induction n with
  | zero =>
    intro a
    simp [partsLoop]
  | succ n ihn =>
    intro a
    rw [List.range'_succ]
    by_cases hc : idx * 4 + a < ids.length
    · rw [show partsLoop r ids idx (a :: List.range' (a + 1) n 1) =
          slotOf r a (ids.getD (idx * 4 + a) []) :: partsLoop r ids idx (List.range' (a + 1) n 1)
          from by rw [partsLoop, if_pos hc]; rfl]
      rw [List.length_cons, ihn (a + 1)]
      omega
    · rw [show partsLoop r ids idx (a :: List.range' (a + 1) n 1) = [] from by
        rw [partsLoop, if_neg hc]]
      simp only [List.length_nil]
      omega

theorem rectsLoop_getElem? (ids : List PyStr) :
    ∀ (rs : List Rect) (j i : Nat),
      (rectsLoop ids (List.enumFrom j rs))[i]? =
        (rs[i / 4]?).bind fun r =>
          (ids[j * 4 + i]?).map fun v => slotOf r (i % 4) v := by
  intro rs
  induction rs with
  | nil =>
    intro j i
    simp [rectsLoop]
  | cons r rest ih =>
    intro j i
    rw [List.enumFrom_cons]
    by_cases hb : ids.length ≤ j * 4
    · rw [show rectsLoop ids ((j, r) :: List.enumFrom (j + 1) rest) = [] from by
        rw [rectsLoop, if_pos hb]]
      rw [List.getElem?_eq_none (show ids.length ≤ j * 4 + i by omega)]
      cases (r :: rest)[i / 4]? <;> rfl
    · rw [show rectsLoop ids ((j, r) :: List.enumFrom (j + 1) rest) =
          partsLoop r ids j (List.range 4) ++ rectsLoop ids (List.enumFrom (j + 1) rest)
          from by rw [rectsLoop, if_neg hb]]
      have hA : (partsLoop r ids j (List.range 4)).length = min 4 (ids.length - j * 4) := by
        rw [List.range_eq_range', partsLoop_length r ids j 4 0]
        omega
      by_cases hi : i < (partsLoop r ids j (List.range 4)).length
      · rw [List.getElem?_append_left hi, List.range_eq_range',
          partsLoop_getElem? r ids j 4 0 i]
        have hi4 : i < 4 := by omega
        have hin : j * 4 + i < ids.length := by omega
        rw [if_pos ⟨by omega, by omega⟩]
        have h04 : (0 : Nat) + i = i := by omega
        rw [h04, show i / 4 = 0 from by omega, List.getElem?_cons_zero,
          show i % 4 = i from by omega, Option.some_bind,
          List.getElem?_eq_getElem hin, Option.map_some',
          List.getD_eq_getElem?_getD, List.getElem?_eq_getElem hin]
        rfl
      · rw [List.getElem?_append_right (by omega), ih (j + 1) (i - (partsLoop r ids j (List.range 4)).length)]
        by_cases hfull : 4 ≤ ids.length - j * 4
        · have hA4 : (partsLoop r ids j (List.range 4)).length = 4 := by omega
          rw [hA4] at hi ⊢
          have e1 : (j + 1) * 4 + (i - 4) = j * 4 + i := by omega
          have e2 : (i - 4) / 4 = i / 4 - 1 := by omega
          have e3 : (i - 4) % 4 = i % 4 := by omega
          rw [e1, e2, e3]
          have e4 : (r :: rest)[i / 4]? = rest[i / 4 - 1]? := by
            rw [show i / 4 = (i / 4 - 1) + 1 from by omega, List.getElem?_cons_succ]
            congr 1
          rw [e4]
        · have hcut : ids.length ≤ (j + 1) * 4 + (i - (partsLoop r ids j (List.range 4)).length) := by
            omega
          rw [List.getElem?_eq_none hcut,
            List.getElem?_eq_none (show ids.length ≤ j * 4 + i by omega)]
          cases (r :: rest)[i / 4]? <;> cases rest[(i - (partsLoop r ids j (List.range 4)).length) / 4]? <;> rfl

/-! ## Lemmas about the ledger loader -/

theorem mapM_firstColumn_ok : ∀ rows : List (List PyStr), (∀ row ∈ rows, row ≠ []) →
    rows.mapM firstColumn = .ok (rows.map fun row => row.headD []) := by
  intro rows
  induction rows with
  | nil => intro _; rfl
  | cons row rest ih =>
    intro h
    match row, h row (by simp) with
    | x :: xs, _ =>
      rw [List.mapM_cons, ih fun r hr => h r (by simp [hr])]
      rfl

theorem mapM_firstColumn_err : ∀ pre post : List (List PyStr), (∀ row ∈ pre, row ≠ []) →
    (pre ++ [] :: post).mapM firstColumn = .error .indexError := by
  intro pre
  induction pre with
  | nil =>
    intro post _
    rw [List.nil_append, List.mapM_cons]
    rfl
  | cons row rest ih =>
    intro post h
    match row, h row (by simp) with
    | x :: xs, _ =>
      rw [List.cons_append, List.mapM_cons, ih post fun r hr => h r (by simp [hr])]
      rfl

/-- The spec's `encode(config, serial)`: `generate_custom_code` applied to the
fields of the configuration, exactly as `generate_ids` calls it. -/
def encode (config : Config) (serial : Nat) : PyStr :=
  generate_custom_code config.area config.producer_code config.year
    config.model_code serial

theorem generate_ids_eq (start end_ : Nat) (used_ids : List PyStr) (config : Config) :
    generate_ids start end_ used_ids config =
      ((List.range' start (end_ + 1 - start)).map (encode config)).filter
        fun i => decide (i ∉ used_ids) := rfl

/-! ## The claims -/

/-- Claim C2 counterexample: `generate_ids` with `start = 5 > 3 = end` returns
the empty list — the code raises no `InvalidRange` error (it has no error
path at all for a reversed range), contradicting the claim. -/
theorem claim_c2_counterexample :
    generate_ids 5 3 [] ⟨1, ['2', '4'], 2024, ['D', '0']⟩ = [] := by rfl

/-- Claim C2 (amended): for every ledger, config and `start > end`,
`generate_ids` returns the empty list, exactly as for an exhausted range; no
`InvalidRange` (or any other) error is raised. -/
theorem claim_c2_amended (start end_ : Nat) (used : List PyStr) (config : Config)
    (h : end_ < start) : generate_ids start end_ used config = [] := by
  rw [generate_ids_eq, show end_ + 1 - start = 0 from by omega]
  rfl

/-- Witness for the amended claim C2 at a concrete reversed range. -/
theorem claim_c2_witness :
    generate_ids 7 2 [['x']] ⟨2, ['9'], 2025, ['A', 'B']⟩ = [] :=
  claim_c2_amended 7 2 [['x']] ⟨2, ['9'], 2025, ['A', 'B']⟩ (by omega)

/-- Claim C3 counterexample: at serial `10000000` the encoder raises no
`EncodingOverflow`; it silently widens, returning a 15-character identifier
(the serial field is the 8-digit decimal form). -/
theorem claim_c3_counterexample :
    generate_custom_code 1 ['2', '4'] 2024 ['D', '0'] 10000000 =
      ['1', '2', '4', '2', '4', 'D', '0', '1', '0', '0', '0', '0', '0', '0', '0'] ∧
    (generate_custom_code 1 ['2', '4'] 2024 ['D', '0'] 10000000).length = 15 := by
  constructor <;> decide

/-- Claim C3 (amended): for every config and serial `≥ 10 ^ 7` the encoder
does not fail: `zfill(7)` leaves the over-wide decimal form unchanged, so the
identifier is silently widened — its serial field is the full decimal form of
the serial, which is strictly longer than 7 characters (no truncation
either), and the allocator therefore also proceeds without error. -/
theorem claim_c3_amended (area : Int) (producer_code : PyStr) (year : Int)
    (model_code : PyStr) (serial : Nat) (h : 10 ^ 7 ≤ serial) :
    generate_custom_code area producer_code year model_code serial =
      intStr area ++ producer_code ++ takeLastTwo (intStr year) ++ model_code ++
        natStr serial ∧
    7 < (natStr serial).length := by
  have hlen := length_natStr_of_ge serial 7 h
  refine ⟨?_, hlen⟩
  unfold generate_custom_code
  rw [zfill_of_length_le 7 (natStr serial) (by omega)]

/-- Witness for the amended claim C3 at serial `10 ^ 7`. -/
theorem claim_c3_witness :
    generate_custom_code 1 ['2', '4'] 2024 ['D', '0'] 10000000 =
      intStr 1 ++ ['2', '4'] ++ takeLastTwo (intStr 2024) ++ ['D', '0'] ++
        natStr 10000000 ∧
    7 < (natStr 10000000).length :=
  claim_c3_amended 1 ['2', '4'] 2024 ['D', '0'] 10000000 (by norm_num)

/-- Claim C8 counterexample: an existing ledger whose second row is
schema-mismatched (a single column, no timestamp) is accepted silently —
`load_used_ids` returns its first field instead of failing loudly. -/
theorem claim_c8_counterexample :
    load_used_ids (some [[['I', 'D'], ['O', 'n']], [['x']]]) =
      .ok [(['x'] : PyStr)].toFinset := by rfl

/-- Claim C8 (amended): a missing ledger loads as the empty set, and loading
is loud only in two cases — an existing zero-row file (`StopIteration` from
the header skip) and a remaining row with zero fields (`IndexError` from
`row[0]`).  Any other schema mismatch is tolerated silently: the first row is
skipped unconditionally and every other row contributes exactly its first
field, whatever its column count. -/
theorem claim_c8_amended :
    load_used_ids none = .ok ∅ ∧
    load_used_ids (some []) = .error .stopIteration ∧
    (∀ (hd : List PyStr) (rest : List (List PyStr)), (∀ row ∈ rest, row ≠ []) →
      load_used_ids (some (hd :: rest)) =
        .ok ((rest.map fun row => row.headD []).toFinset)) ∧
    (∀ (hd : List PyStr) (pre post : List (List PyStr)), (∀ row ∈ pre, row ≠ []) →
      load_used_ids (some (hd :: (pre ++ [] :: post))) = .error .indexError) := by
  refine ⟨rfl, rfl, ?_, ?_⟩
  · intro hd rest h
    show (rest.mapM firstColumn).map List.toFinset = _
    rw [mapM_firstColumn_ok rest h]
    rfl
  · intro hd pre post h
    show ((pre ++ [] :: post).mapM firstColumn).map List.toFinset = _
    rw [mapM_firstColumn_err pre post h]
    rfl

/-- Witness for the amended claim C8: a two-field header row skipped, a
two-field data row contributing its first field. -/
theorem claim_c8_witness :
    load_used_ids (some [[['h']], [['a'], ['t']]]) =
      .ok (([[['a'], ['t']]].map fun row => row.headD []).toFinset) :=
  claim_c8_amended.2.2.1 [['h']] [[['a'], ['t']]] (by decide)

/-- Claim C9: `split_serial` returns characters 0..6 of the identifier as the
first display line and characters 7..13 as the second; for a 14-character
identifier both lines have length 7 and their concatenation is the identifier. -/
theorem claim_c9_split_serial (s : PyStr) :
    (∀ i : Nat, i < 7 → (split_serial s).1[i]? = s[i]?) ∧
    (∀ i : Nat, i < 7 → (split_serial s).2[i]? = s[7 + i]?) ∧
    (s.length = 14 →
      (split_serial s).1.length = 7 ∧ (split_serial s).2.length = 7 ∧
      (split_serial s).1 ++ (split_serial s).2 = s) := by
  refine ⟨?_, ?_, ?_⟩
  · intro i hi
    exact List.getElem?_take_of_lt hi
  · intro i hi
    show ((s.drop 7).take 7)[i]? = _
    rw [List.getElem?_take_of_lt hi, List.getElem?_drop]
  · intro hlen
    have h1 : (s.take 7).length = 7 := by rw [List.length_take]; omega
    have h2 : ((s.drop 7).take 7).length = 7 := by
      rw [List.length_take, List.length_drop]; omega
    refine ⟨h1, h2, ?_⟩
    show s.take 7 ++ (s.drop 7).take 7 = s
    rw [List.take_of_length_le (show (s.drop 7).length ≤ 7 from by
      rw [List.length_drop]; omega)]
    exact List.take_append_drop 7 s

/-- Witness for claim C9 on a concrete 14-character identifier. -/
theorem claim_c9_witness :
    (split_serial ['1', '2', '4', '2', '4', 'D', '0', '0', '0', '0', '0', '0', '0', '1']).1 ++
      (split_serial ['1', '2', '4', '2', '4', 'D', '0', '0', '0', '0', '0', '0', '0', '1']).2 =
      ['1', '2', '4', '2', '4', 'D', '0', '0', '0', '0', '0', '0', '0', '1'] :=
  ((claim_c9_split_serial
      ['1', '2', '4', '2', '4', 'D', '0', '0', '0', '0', '0', '0', '0', '1']).2.2
    (by decide)).2.2

/-- Claim C10: `load_used_ids` unconditionally discards the first row of an
existing file and returns the set of first-column values of the remaining
rows; hence a first-row identifier that recurs nowhere later is absent from
the loaded set, and a zero-row existing file raises instead of returning the
empty set. -/
theorem claim_c10_header_skip :
    (∀ (first : List PyStr) (rest : List (List PyStr)), (∀ row ∈ rest, row ≠ []) →
      load_used_ids (some (first :: rest)) =
        .ok ((rest.map fun row => row.headD []).toFinset)) ∧
    (∀ (x : PyStr) (fields : List PyStr) (rest : List (List PyStr)) (S : Finset PyStr),
      (∀ row ∈ rest, row ≠ []) →
      x ∉ rest.map (fun row => row.headD []) →
      load_used_ids (some ((x :: fields) :: rest)) = .ok S → x ∉ S) ∧
    load_used_ids (some []) = .error .stopIteration := by
  have hok : ∀ (first : List PyStr) (rest : List (List PyStr)), (∀ row ∈ rest, row ≠ []) →
      load_used_ids (some (first :: rest)) =
        .ok ((rest.map fun row => row.headD []).toFinset) := by
    intro first rest h
    show (rest.mapM firstColumn).map List.toFinset = _
    rw [mapM_firstColumn_ok rest h]
    rfl
  refine ⟨hok, ?_, rfl⟩
  intro x fields rest S hrows hx hload
  rw [hok (x :: fields) rest hrows] at hload
  have hS : S = (rest.map fun row => row.headD []).toFinset := by
    injection hload with h
    exact h.symm
  rw [hS, List.mem_toFinset]
  exact hx

/-- Witness for claim C10: the headerless first row's identifier is not in
the loaded set. -/
theorem claim_c10_witness :
    (['a'] : PyStr) ∉ ([(['b'] : PyStr)].toFinset : Finset PyStr) :=
  claim_c10_header_skip.2.1 ['a'] [] [[['b']]] [(['b'] : PyStr)].toFinset
    (by decide) (by decide) (by rfl)

/-- Claim C1: for `start ≤ end` the allocator never returns a ledger member;
every output is the encoding of an in-range serial, every in-range encoding
outside the ledger is in the output, the output preserves ascending-serial
order (it is a sublist of the ascending encoding list), and when every
in-range encoding is in the ledger the result is the empty list, not an
error. -/
theorem claim_c1_allocator_dedup (start end_ : Nat) (used : List PyStr)
    (config : Config) (h : start ≤ end_) :
    (∀ x ∈ generate_ids start end_ used config, x ∉ used) ∧
    (∀ x ∈ generate_ids start end_ used config,
      ∃ s, start ≤ s ∧ s ≤ end_ ∧ x = encode config s) ∧
    (∀ s, start ≤ s → s ≤ end_ → encode config s ∉ used →
      encode config s ∈ generate_ids start end_ used config) ∧
    (generate_ids start end_ used config).Sublist
      ((List.range' start (end_ + 1 - start)).map (encode config)) ∧
    ((∀ s, start ≤ s → s ≤ end_ → encode config s ∈ used) →
      generate_ids start end_ used config = []) := by
  rw [generate_ids_eq]
  refine ⟨?_, ?_, ?_, List.filter_sublist _, ?_⟩
  · intro x hx
    have := (List.mem_filter.mp hx).2
    simpa using this
  · intro x hx
    obtain ⟨s, hs, rfl⟩ := List.mem_map.mp (List.mem_filter.mp hx).1
    have hr := List.mem_range'_1.mp hs
    exact ⟨s, hr.1, by omega, rfl⟩
  · intro s hs1 hs2 hnot
    exact List.mem_filter.mpr
      ⟨List.mem_map.mpr ⟨s, List.mem_range'_1.mpr ⟨hs1, by omega⟩, rfl⟩,
        by simpa using hnot⟩
  · intro hall
    rw [List.filter_eq_nil_iff]
    intro a ha
    obtain ⟨s, hs, rfl⟩ := List.mem_map.mp ha
    have hr := List.mem_range'_1.mp hs
    simpa using hall s hr.1 (by omega)

/-- Witness for claim C1: serial 2 of the empty-ledger range 1..3 is
allocated. -/
theorem claim_c1_witness :
    encode ⟨1, ['2', '4'], 2024, ['D', '0']⟩ 2 ∈
      generate_ids 1 3 [] ⟨1, ['2', '4'], 2024, ['D', '0']⟩ :=
  (claim_c1_allocator_dedup 1 3 [] ⟨1, ['2', '4'], 2024, ['D', '0']⟩
    (by omega)).2.2.1 2 (by omega) (by omega) (by decide)

/-- Claim C4: for every config and every serial of at most seven decimal
digits, the encoded identifier is the separator-free concatenation of the
decimal form of `area`, the producer code, the last two characters of the
decimal form of `year`, the model code, and the serial rendered as exactly
seven zero-padded decimal digits; in the end-to-end example the serials 1..5
encode to "12424D00000001" .. "12424D00000005". -/
theorem claim_c4_encoding_format :
    (∀ (area : Int) (producer_code : PyStr) (year : Int) (model_code : PyStr)
        (serial : Nat), serial ≤ 9999999 →
      generate_custom_code area producer_code year model_code serial =
        intStr area ++ producer_code ++ takeLastTwo (intStr year) ++ model_code ++
          sevenDigits serial) ∧
    generate_custom_code 1 ['2', '4'] 2024 ['D', '0'] 1 =
      ['1', '2', '4', '2', '4', 'D', '0', '0', '0', '0', '0', '0', '0', '1'] ∧
    generate_custom_code 1 ['2', '4'] 2024 ['D', '0'] 2 =
      ['1', '2', '4', '2', '4', 'D', '0', '0', '0', '0', '0', '0', '0', '2'] ∧
    generate_custom_code 1 ['2', '4'] 2024 ['D', '0'] 3 =
      ['1', '2', '4', '2', '4', 'D', '0', '0', '0', '0', '0', '0', '0', '3'] ∧
    generate_custom_code 1 ['2', '4'] 2024 ['D', '0'] 4 =
      ['1', '2', '4', '2', '4', 'D', '0', '0', '0', '0', '0', '0', '0', '4'] ∧
    generate_custom_code 1 ['2', '4'] 2024 ['D', '0'] 5 =
      ['1', '2', '4', '2', '4', 'D', '0', '0', '0', '0', '0', '0', '0', '5'] := by
  refine ⟨?_, by decide, by decide, by decide, by decide, by decide⟩
  intro area producer_code year model_code serial hs
  unfold generate_custom_code
  rw [zfill_natStr_eq_sevenDigits serial (by norm_num; omega)]

/-- Witness for claim C4 at serial 3 of the example config. -/
theorem claim_c4_witness :
    generate_custom_code 1 ['2', '4'] 2024 ['D', '0'] 3 =
      intStr 1 ++ ['2', '4'] ++ takeLastTwo (intStr 2024) ++ ['D', '0'] ++
        sevenDigits 3 :=
  claim_c4_encoding_format.1 1 ['2', '4'] 2024 ['D', '0'] 3 (by omega)

/-- Claim C5: for one fixed config, distinct serials within 0..9999999 encode
to distinct identifiers. -/
theorem claim_c5_injectivity (area : Int) (producer_code : PyStr) (year : Int)
    (model_code : PyStr) (s1 s2 : Nat) (h1 : s1 ≤ 9999999) (h2 : s2 ≤ 9999999)
    (hne : s1 ≠ s2) :
    generate_custom_code area producer_code year model_code s1 ≠
      generate_custom_code area producer_code year model_code s2 := by
  intro heq
  apply hne
  unfold generate_custom_code at heq
  have heq1 : zfill 7 (natStr s1) = zfill 7 (natStr s2) :=
    List.append_cancel_left heq
  exact zfill_natStr_injective 7 s1 s2 heq1

/-- Witness for claim C5: serials 1 and 2 of the example config encode
differently. -/
theorem claim_c5_witness :
    generate_custom_code 1 ['2', '4'] 2024 ['D', '0'] 1 ≠
      generate_custom_code 1 ['2', '4'] 2024 ['D', '0'] 2 :=
  claim_c5_injectivity 1 ['2', '4'] 2024 ['D', '0'] 1 2 (by omega) (by omega)
    (by omega)

/-- Claim C6: the per-page capacity is `4 * 27 = 108` identifiers; the
pagination of `main` splits any identifier list into `ceil(N / 108)` pages,
concatenating the pages in order reproduces the input exactly, every page
except the last holds exactly 108 identifiers, and the last holds
`N mod 108` (or 108 when 108 divides `N`). -/
theorem claim_c6_pagination (ids : List PyStr) :
    ids_per_file = 4 * rect_dimensions.length ∧
    (chunkList ids_per_file ids).flatten = ids ∧
    (chunkList ids_per_file ids).length =
      (ids.length + ids_per_file - 1) / ids_per_file ∧
    (∀ p ∈ (chunkList ids_per_file ids).dropLast, p.length = ids_per_file) ∧
    (∀ p, (chunkList ids_per_file ids).getLast? = some p →
      p.length = if ids.length % ids_per_file = 0 then ids_per_file
        else ids.length % ids_per_file) := by
  have hc : ids_per_file = 108 := rfl
  rw [hc]
  refine ⟨by rfl, chunkGo_flatten ids.length ids le_rfl, ?_,
    chunkGo_dropLast ids.length ids le_rfl, ?_⟩
  · show (chunkGo 108 ids.length ids).length = _
    rw [chunkGo_length ids.length ids le_rfl]
    omega
  · intro p hp
    by_cases hnil : ids = []
    · subst hnil
      simp [chunkList, chunkGo_nil] at hp
    · exact chunkGo_getLast ids.length ids le_rfl hnil p hp

/-- Witness for claim C6 on a concrete five-identifier run: one page of five. -/
theorem claim_c6_witness :
    (chunkList ids_per_file [['a'], ['b'], ['c'], ['d'], ['e']]).flatten =
      [['a'], ['b'], ['c'], ['d'], ['e']] ∧
    ([['a'], ['b'], ['c'], ['d'], ['e']] : List PyStr).length =
      if ([['a'], ['b'], ['c'], ['d'], ['e']] : List PyStr).length % ids_per_file = 0
        then ids_per_file
        else ([['a'], ['b'], ['c'], ['d'], ['e']] : List PyStr).length % ids_per_file :=
  ⟨(claim_c6_pagination [['a'], ['b'], ['c'], ['d'], ['e']]).2.1,
    (claim_c6_pagination [['a'], ['b'], ['c'], ['d'], ['e']]).2.2.2.2
      [['a'], ['b'], ['c'], ['d'], ['e']] (by decide)⟩

/-- Claim C7: `generate_svg` fills rectangles in template order and each
rectangle's four quadrants in raster order — the slot at global position `i`
lies in rectangle `i / 4`, has part index `k = i % 4`, sits at
`(x + (k % 2) * (width / 2), y + (k / 2) * (height / 2))` and holds
identifier `ids[i]`; positions past the identifiers (or past the template)
are absent, so a final page short of identifiers is emitted partially filled
with no fabricated placeholders and no error. -/
theorem claim_c7_slot_layout (rectangles : List Rect) (ids : List PyStr) (i : Nat) :
    (generate_svg_slots rectangles ids)[i]? =
      (rectangles[i / 4]?).bind fun r =>
        (ids[i]?).map fun v =>
          { part_x := r.x + ((i % 4 % 2 : Nat) : ℚ) * (r.width / 2),
            part_y := r.y + ((i % 4 / 2 : Nat) : ℚ) * (r.height / 2),
            part_id := v } := by
  show (rectsLoop ids rectangles.enum)[i]? = _
  rw [List.enum_eq_enumFrom, rectsLoop_getElem? ids rectangles 0 i,
    show 0 * 4 + i = i from by omega]
  rfl
